import Mathlib

/-!
Verification of the `wotw_seedgen_stats` crate (`src/lib.rs`): the `Stats`
report type with its `title` and `csv` rendering, and the `stats` aggregation
pipeline (analyzer chains, Cartesian-product keys, per-key counting), together
with a model of the seed corpus construction described by the design document.

Rust data is embedded shallowly: `Vec<Rc<String>>` keys become `List String`,
`u32` counts become `Nat`, `FxHashMap` becomes an association list holding the
map entries in iteration order, and fallible operations return `Except`.
-/

namespace WotwStats

/-- Rust's `str::parse::<u32>` as used in `Stats::csv`: an optional leading
`+` sign followed by one or more ASCII digits, with the value required to fit
in 32 bits; anything else fails. -/
def parseU32 (s : String) : Option Nat :=
  let digits := match s.data with
    | '+' :: rest => rest
    | chars => chars
  if digits.isEmpty then none
  else if digits.all Char.isDigit then
    let n := digits.foldl (fun acc c => acc * 10 + (c.toNat - 48)) 0
    if n < 4294967296 then some n else none
  else none

/-- The sort-key type declared inside `Stats::csv`. The derived Rust `Ord`
compares by variant first, in declaration order: every `String` value is
strictly below every `Number` value. -/
inductive StringOrNumber where
  | String : String → StringOrNumber
  | Number : Nat → StringOrNumber
deriving DecidableEq, Repr

/-- Lexicographic `≤` on character lists by code point; a strict prefix
orders below the longer list. On UTF-8 strings, Rust's byte-wise `Ord` agrees
with this code-point order. -/
def charsLeb : List Char → List Char → Bool
  | [], _ => true
  | _ :: _, [] => false
  | c :: cs, d :: ds => if c = d then charsLeb cs ds else decide (c < d)

/-- Rust's `Ord` on `String`: byte-wise lexicographic comparison, which on
UTF-8 data is code-point-wise lexicographic comparison. -/
def strLeb (a b : String) : Bool :=
  charsLeb a.data b.data

/-- The derived `Ord` on `StringOrNumber` as a boolean `≤`: variant order
(`String` before `Number`), payloads compared within a variant. -/
def StringOrNumber.leb : StringOrNumber → StringOrNumber → Bool
  | .String a, .String b => strLeb a b
  | .String _, .Number _ => true
  | .Number _, .String _ => false
  | .Number a, .Number b => decide (a ≤ b)

/-- The derived `Ord` on `Vec<StringOrNumber>`: lexicographic element-wise
comparison, with a strict prefix ordering below the longer list. -/
def keyLeb : List StringOrNumber → List StringOrNumber → Bool
  | [], _ => true
  | _ :: _, [] => false
  | a :: as, b :: bs => if a = b then keyLeb as bs else StringOrNumber.leb a b

/-- The sort key computed for one `Stats` key in `Stats::csv`: each label that
parses as a `u32` becomes `Number`, every other label stays `String`. -/
def sortKeyOf (key : List String) : List StringOrNumber :=
  key.map fun label =>
    match parseU32 label with
    | some number => .Number number
    | none => .String label

/-- The `data.sort_by_key(..)` step of `Stats::csv`: a stable sort of the map
entries by the sort key of their `Stats` key (Rust's `sort_by_key` is stable,
as is `List.mergeSort`). -/
def sortData (data : List (List String × Nat)) : List (List String × Nat) :=
  data.mergeSort fun a b => keyLeb (sortKeyOf a.1) (sortKeyOf b.1)

/-- The `Stats` struct: analyzer titles and the aggregated counts. `data`
holds the `FxHashMap` entries in iteration order. -/
structure Stats where
  analyzer_titles : List String
  data : List (List String × Nat)

/-- `Stats::title`: the analyzer titles joined with `" and "`. -/
def Stats.title (s : Stats) : String :=
  String.intercalate " and " s.analyzer_titles

/-- One data row of `Stats::csv`: the labels joined with `", "`, then `", "`
and the count. -/
def csvRow (e : List String × Nat) : String :=
  String.intercalate ", " e.1 ++ ", " ++ toString e.2

/-- `Stats::csv`: the titles joined with `", "`, then `", Count\n"`, then the
sorted data rows interspersed with newlines. -/
def Stats.csv (s : Stats) : String :=
  let csv := String.intercalate ", " s.analyzer_titles ++ ", Count\n"
  let data := sortData s.data
  csv ++ String.join (List.intersperse "\n" (data.map csvRow))

/-- An `Analyzer` (trait object): a label sequence per seed plus a title. -/
structure Analyzer (σ : Type) where
  analyze : σ → List String
  title : String

/-- The mathematical Cartesian product of a list of lists, in order, with the
last factor varying fastest; the empty product is the one empty tuple. -/
def cartesianProd : List (List α) → List (List α)
  | [] => [[]]
  | l :: rest => l.flatMap fun x => (cartesianProd rest).map (x :: ·)

/-- `Itertools::multi_cartesian_product`: as `cartesianProd`, except that the
product of zero iterators yields no elements at all. -/
def multiCartesianProduct (ls : List (List α)) : List (List α) :=
  match ls with
  | [] => []
  | _ :: _ => cartesianProd ls

/-- The keys one seed contributes to one chain's report in `stats`: the
multi-Cartesian product, in chain order, of the analyzers' label sequences. -/
def chainKeys (chain : List (Analyzer σ)) (seed : σ) : List (List String) :=
  multiCartesianProduct (chain.map fun a => a.analyze seed)

/-- `*data.entry(key).or_default() += 1` on the association-list model of the
hash map: bump the entry if the key is present, otherwise add it with count 1. -/
def incr : List (List String × Nat) → List String → List (List String × Nat)
  | [], k => [(k, 1)]
  | (k', v) :: rest, k =>
    if k' = k then (k', v + 1) :: rest else (k', v) :: incr rest k

/-- The count a map assigns to a key (0 when absent). -/
def lookupCount : List (List String × Nat) → List String → Nat
  | [], _ => 0
  | (k', v) :: rest, k => if k' = k then v else lookupCount rest k

/-- The keys present in a map. -/
def mapKeys (m : List (List String × Nat)) : List (List String) :=
  m.map (·.1)

/-- The sum of all counts in a map. -/
def sumCounts (m : List (List String × Nat)) : Nat :=
  (m.map (·.2)).sum

/-- The inner `for_each` of `stats` for one seed and one chain: every key of
the multi-Cartesian product is counted once into the chain's map. -/
def processSeedChain (m : List (List String × Nat)) (chain : List (Analyzer σ))
    (seed : σ) : List (List String × Nat) :=
  (chainKeys chain seed).foldl incr m

/-- One iteration of the outer seed loop of `stats`: the maps are updated
pairwise with their chains (`data.iter_mut().zip(analyzers.iter())`). -/
def stepSeed (maps : List (List (List String × Nat)))
    (chains : List (List (Analyzer σ))) (seed : σ) :
    List (List (List String × Nat)) :=
  maps.zipWith (fun m c => processSeedChain m c seed) chains

/-- The whole seed loop of `stats`, starting from one empty map per chain. -/
def runChains (chains : List (List (Analyzer σ))) (seeds : List σ) :
    List (List (List String × Nat)) :=
  seeds.foldl (fun maps s => stepSeed maps chains s) (chains.map fun _ => [])

/-- One chain's accumulator, folded over the seeds on its own. -/
def aggregateChain (chain : List (Analyzer σ)) (seeds : List σ) :
    List (List String × Nat) :=
  seeds.foldl (fun m s => processSeedChain m chain s) []

/-- The pure tail of `stats`: run the seed loop, then pair each accumulator
with its chain's titles (`data.into_iter().zip(analyzers)`). -/
def statsFn (chains : List (List (Analyzer σ))) (seeds : List σ) : List Stats :=
  ((runChains chains seeds).zip chains).map fun e =>
    { analyzer_titles := e.2.map (·.title), data := e.1 }

/-- Modelled from the spec: `seed_storage::Seeds` is declared in `lib.rs` but
its module is not among the sources. Per the design document the corpus
generation loop fills the remaining sample slots by repeatedly invoking the
generator; a failed attempt consumes no slot but increments the failure
counter, aborting with the total failure count once it exceeds the tolerated
number. `gen` gives the outcome of each attempt in order. -/
def corpusGenerate (gen : Nat → Option σ) (tolerated idx slots failures : Nat) :
    Except Nat (List σ) :=
  if slots = 0 then .ok []
  else
    match gen idx with
    | some artifact =>
      match corpusGenerate gen tolerated (idx + 1) (slots - 1) failures with
      | .ok rest => .ok (artifact :: rest)
      | .error e => .error e
    | none =>
      if tolerated < failures + 1 then .error (failures + 1)
      else corpusGenerate gen tolerated (idx + 1) slots (failures + 1)
termination_by (slots, tolerated + 1 - failures)
decreasing_by
  all_goals simp_wf
  · left
    omega
  · right
    omega

/-- Modelled from the spec: `Seeds::new`. Cached artifacts for the settings
are reused first, up to `sampleSize`, consuming no failure budget; the
remaining slots are filled by the generation loop. -/
def corpusNew (cached : List σ) (gen : Nat → Option σ)
    (sampleSize tolerated : Nat) : Except Nat (List σ) :=
  let reused := cached.take sampleSize
  match corpusGenerate gen tolerated 0 (sampleSize - reused.length) 0 with
  | .ok fresh => .ok (reused ++ fresh)
  | .error e => .error e

/-- Observable store events of one `stats` call, in order. -/
inductive StoreEvent where
  | cleaned
  | corpusBuilt
deriving DecidableEq, Repr

/-- The part of `stats` after the optional clean: corpus construction (an
abstract outcome, since `Seeds::new` lives outside the sources), then the
aggregation loop on success; a corpus error propagates via `?`. -/
def statsAfterClean (events : List StoreEvent)
    (corpusResult : Except String (List σ))
    (chains : List (List (Analyzer σ))) :
    List StoreEvent × Except String (List Stats) :=
  match corpusResult with
  | .error e => (events, .error e)
  | .ok seeds => (events ++ [.corpusBuilt], .ok (statsFn chains seeds))

/-- The control flow of `stats` around the store: when `overwrite` is set,
`F::clean_seeds` runs first and its error propagates via `?` before any
corpus is constructed; otherwise the store is left untouched. -/
def statsRun (overwrite : Bool) (cleanResult : Except String Unit)
    (corpusResult : Except String (List σ))
    (chains : List (List (Analyzer σ))) :
    List StoreEvent × Except String (List Stats) :=
  if overwrite then
    match cleanResult with
    | .error e => ([], .error e)
    | .ok _ => statsAfterClean [.cleaned] corpusResult chains
  else
    statsAfterClean [] corpusResult chains

/-! ### Lemmas about the association-list map -/

theorem lookupCount_incr (m : List (List String × Nat)) (k k' : List String) :
    lookupCount (incr m k) k' = lookupCount m k' + if k' = k then 1 else 0 := by
  induction m with
  | nil =>
    by_cases h : k = k'
    · subst h
      simp [incr, lookupCount]
    · simp [incr, lookupCount, h, Ne.symm h]
  | cons e rest ih =>
    obtain ⟨ke, ve⟩ := e
    by_cases h1 : ke = k
    · subst h1
      by_cases h2 : ke = k'
      · subst h2
        simp [incr, lookupCount]
      · simp [incr, lookupCount, h2, Ne.symm h2]
    · by_cases h2 : ke = k'
      · subst h2
        simp [incr, lookupCount, h1, Ne.symm h1]
      · simp [incr, lookupCount, h1, h2, ih]

theorem lookupCount_foldl_incr (ks : List (List String)) :
    ∀ (m : List (List String × Nat)) (k : List String),
      lookupCount (ks.foldl incr m) k = lookupCount m k + ks.count k := by
  induction ks with
  | nil =>
    intro m k
    simp
  | cons k0 ks ih =>
    intro m k
    by_cases h : k = k0
    · subst h
      simp [ih, lookupCount_incr, List.count_cons]
      omega
    · simp [ih, lookupCount_incr, List.count_cons, h]

theorem sumCounts_incr (m : List (List String × Nat)) (k : List String) :
    sumCounts (incr m k) = sumCounts m + 1 := by
  induction m with
  | nil => simp [incr, sumCounts]
  | cons e rest ih =>
    obtain ⟨ke, ve⟩ := e
    by_cases h : ke = k
    · simp [incr, sumCounts, h]
      omega
    · simp only [incr, if_neg h, sumCounts, List.map_cons, List.sum_cons]
      simp only [sumCounts] at ih
      omega

theorem sumCounts_foldl_incr (ks : List (List String)) :
    ∀ m : List (List String × Nat),
      sumCounts (ks.foldl incr m) = sumCounts m + ks.length := by
  induction ks with
  | nil =>
    intro m
    simp
  | cons k0 ks ih =>
    intro m
    simp [ih, sumCounts_incr]
    omega

theorem mem_mapKeys_incr {m : List (List String × Nat)} {k x : List String}
    (h : x ∈ mapKeys (incr m k)) : x ∈ mapKeys m ∨ x = k := by
  induction m with
  | nil => simpa [incr, mapKeys] using h
  | cons e rest ih =>
    obtain ⟨ke, ve⟩ := e
    by_cases h1 : ke = k
    · subst h1
      left
      simpa [incr, mapKeys] using h
    · simp only [incr, if_neg h1, mapKeys, List.map_cons, List.mem_cons] at h
      rcases h with h | h
      · exact Or.inl (by simp [mapKeys, h])
      · rcases ih (by simpa [mapKeys] using h) with h' | h'
        · refine Or.inl ?_
          simp only [mapKeys, List.map_cons, List.mem_cons]
          exact Or.inr (by simpa [mapKeys] using h')
        · exact Or.inr h'

theorem mem_foldl_incr (ks : List (List String)) :
    ∀ (m : List (List String × Nat)) (e : List String × Nat),
      e ∈ ks.foldl incr m → e.1 ∈ mapKeys m ∨ e.1 ∈ ks := by
  induction ks with
  | nil =>
    intro m e h
    exact Or.inl (List.mem_map_of_mem _ (by simpa using h))
  | cons k0 ks ih =>
    intro m e h
    rcases ih (incr m k0) e (by simpa using h) with h' | h'
    · rcases mem_mapKeys_incr h' with h'' | h''
      · exact Or.inl h''
      · exact Or.inr (by simp [h''])
    · exact Or.inr (by simp [h'])

/-! ### Lemmas about the Cartesian product -/

theorem length_cartesianProd (ls : List (List α)) :
    (cartesianProd ls).length = (ls.map List.length).prod := by
  induction ls with
  | nil => simp [cartesianProd]
  | cons l rest ih =>
    rw [cartesianProd, List.length_flatMap]
    simp only [Function.comp_def, List.length_map]
    rw [List.map_const', List.sum_replicate, smul_eq_mul, ih]
    simp

theorem length_of_mem_cartesianProd {ls : List (List α)} {x : List α}
    (h : x ∈ cartesianProd ls) : x.length = ls.length := by
  induction ls generalizing x with
  | nil => simp_all [cartesianProd]
  | cons l rest ih =>
    simp only [cartesianProd, List.mem_flatMap, List.mem_map] at h
    obtain ⟨a, _, y, hy, rfl⟩ := h
    simp [ih hy]

theorem cartesianProd_eq_nil_of_mem {ls : List (List α)} (h : [] ∈ ls) :
    cartesianProd ls = [] := by
  induction ls with
  | nil => simp at h
  | cons l rest ih =>
    rcases List.mem_cons.mp h with h' | h'
    · simp [cartesianProd, ← h']
    · simp [cartesianProd, ih h']

theorem nodup_cartesianProd {ls : List (List α)}
    (h : ∀ l ∈ ls, l.Nodup) : (cartesianProd ls).Nodup := by
  induction ls with
  | nil => simp [cartesianProd]
  | cons l rest ih =>
    have hl : l.Nodup := h l (by simp)
    have hrest : (cartesianProd rest).Nodup := ih fun x hx => h x (by simp [hx])
    rw [cartesianProd, List.nodup_flatMap]
    refine ⟨fun x _ => hrest.map fun a b hab => by injection hab, ?_⟩
    refine hl.imp ?_
    intro a b hab
    intro z hza hzb
    simp only [List.mem_map] at hza hzb
    obtain ⟨ya, _, rfl⟩ := hza
    obtain ⟨yb, _, h'⟩ := hzb
    injection h' with h1 _
    exact hab h1.symm

/-! ### The seed loop processes each chain independently -/

theorem zipWith_fst {α β : Type} :
    ∀ (xs : List α) (ys : List β), xs.length = ys.length →
      List.zipWith (fun x _ => x) xs ys = xs := by
  intro xs
  induction xs with
  | nil =>
    intro ys _
    simp
  | cons x xs ih =>
    intro ys h
    cases ys with
    | nil => simp at h
    | cons y ys =>
      simp only [List.zipWith_cons_cons]
      rw [ih ys (by simpa using h)]

theorem zipWith_zipWith_same {α β : Type} (f : α → β → α) (g : α → β → α) :
    ∀ (xs : List α) (ys : List β),
      List.zipWith f (List.zipWith g xs ys) ys
        = List.zipWith (fun x y => f (g x y) y) xs ys := by
  intro xs
  induction xs with
  | nil =>
    intro ys
    simp
  | cons x xs ih =>
    intro ys
    cases ys with
    | nil => simp
    | cons y ys => simp [ih]

theorem foldl_stepSeed (seeds : List σ) :
    ∀ (maps : List (List (List String × Nat)))
      (chains : List (List (Analyzer σ))), maps.length = chains.length →
      seeds.foldl (fun maps s => stepSeed maps chains s) maps
        = List.zipWith
            (fun m c => seeds.foldl (fun m s => processSeedChain m c s) m)
            maps chains := by
  induction seeds with
  | nil =>
    intro maps chains h
    simp only [List.foldl_nil]
    exact (zipWith_fst maps chains h).symm
  | cons s seeds ih =>
    intro maps chains h
    simp only [List.foldl_cons]
    rw [ih (stepSeed maps chains s) chains
      (by simpa [stepSeed, List.length_zipWith] using by omega)]
    rw [stepSeed, zipWith_zipWith_same]

theorem runChains_eq (chains : List (List (Analyzer σ))) (seeds : List σ) :
    runChains chains seeds = chains.map fun c => aggregateChain c seeds := by
  rw [runChains, foldl_stepSeed seeds _ chains (by simp)]
  induction chains with
  | nil => simp
  | cons c chains ih =>
    simp only [List.map_cons, List.zipWith_cons_cons, aggregateChain]
    rw [ih]
    simp only [aggregateChain]

theorem statsFn_eq (chains : List (List (Analyzer σ))) (seeds : List σ) :
    statsFn chains seeds
      = chains.map fun c =>
          Stats.mk (c.map (·.title)) (aggregateChain c seeds) := by
  rw [statsFn, runChains_eq]
  induction chains with
  | nil => simp
  | cons c chains ih => simp [ih]

/-! ### Counting in a chain's accumulator -/

theorem lookupCount_aggregateFrom (chain : List (Analyzer σ)) (seeds : List σ) :
    ∀ (m : List (List String × Nat)) (k : List String),
      lookupCount (seeds.foldl (fun m s => processSeedChain m chain s) m) k
        = lookupCount m k
            + (seeds.map fun s => (chainKeys chain s).count k).sum := by
  induction seeds with
  | nil =>
    intro m k
    simp
  | cons s seeds ih =>
    intro m k
    simp only [List.foldl_cons, List.map_cons, List.sum_cons]
    rw [ih, processSeedChain, lookupCount_foldl_incr]
    omega

theorem lookupCount_aggregateChain (chain : List (Analyzer σ)) (seeds : List σ)
    (k : List String) :
    lookupCount (aggregateChain chain seeds) k
      = (seeds.map fun s => (chainKeys chain s).count k).sum := by
  rw [aggregateChain, lookupCount_aggregateFrom]
  simp [lookupCount]

theorem sumCounts_aggregateFrom (chain : List (Analyzer σ)) (seeds : List σ) :
    ∀ m : List (List String × Nat),
      sumCounts (seeds.foldl (fun m s => processSeedChain m chain s) m)
        = sumCounts m + (seeds.map fun s => (chainKeys chain s).length).sum := by
  induction seeds with
  | nil =>
    intro m
    simp
  | cons s seeds ih =>
    intro m
    simp only [List.foldl_cons, List.map_cons, List.sum_cons]
    rw [ih, processSeedChain, sumCounts_foldl_incr]
    omega

theorem sumCounts_aggregateChain (chain : List (Analyzer σ)) (seeds : List σ) :
    sumCounts (aggregateChain chain seeds)
      = (seeds.map fun s => (chainKeys chain s).length).sum := by
  rw [aggregateChain, sumCounts_aggregateFrom]
  simp [sumCounts]

/-! ### Facts about the keys a chain produces -/

theorem chainKeys_of_ne_nil {chain : List (Analyzer σ)} (h : chain ≠ [])
    (seed : σ) :
    chainKeys chain seed = cartesianProd (chain.map fun a => a.analyze seed) := by
  cases chain with
  | nil => exact absurd rfl h
  | cons a rest => rfl

theorem length_chainKeys {chain : List (Analyzer σ)} (h : chain ≠ []) (seed : σ) :
    (chainKeys chain seed).length
      = (chain.map fun a => (a.analyze seed).length).prod := by
  rw [chainKeys_of_ne_nil h, length_cartesianProd, List.map_map]
  rfl

theorem nodup_chainKeys {chain : List (Analyzer σ)} (seed : σ)
    (h : ∀ a ∈ chain, (a.analyze seed).Nodup) : (chainKeys chain seed).Nodup := by
  cases chain with
  | nil => simp [chainKeys, multiCartesianProduct]
  | cons a rest =>
    rw [chainKeys_of_ne_nil (by simp)]
    apply nodup_cartesianProd
    intro l hl
    simp only [List.mem_map] at hl
    obtain ⟨a', ha', rfl⟩ := hl
    exact h a' ha'

theorem length_of_mem_chainKeys {chain : List (Analyzer σ)} {seed : σ}
    {x : List String} (h : x ∈ chainKeys chain seed) : x.length = chain.length := by
  cases chain with
  | nil => simp [chainKeys, multiCartesianProduct] at h
  | cons a rest =>
    rw [chainKeys_of_ne_nil (by simp)] at h
    simpa using length_of_mem_cartesianProd h

theorem chainKeys_eq_nil_of_analyze_nil {chain : List (Analyzer σ)} {seed : σ}
    {a : Analyzer σ} (ha : a ∈ chain) (h : a.analyze seed = []) :
    chainKeys chain seed = [] := by
  cases chain with
  | nil => rfl
  | cons a0 rest =>
    rw [chainKeys_of_ne_nil (by simp)]
    apply cartesianProd_eq_nil_of_mem
    simp only [List.mem_map]
    exact ⟨a, ha, h⟩

theorem mem_mapKeys_foldl_incr {ks : List (List String)}
    {m : List (List String × Nat)} {x : List String}
    (h : x ∈ mapKeys (ks.foldl incr m)) : x ∈ mapKeys m ∨ x ∈ ks := by
  simp only [mapKeys, List.mem_map] at h
  obtain ⟨e, he, rfl⟩ := h
  exact mem_foldl_incr ks m e he

theorem mem_aggregateFrom (chain : List (Analyzer σ)) (seeds : List σ) :
    ∀ (m : List (List String × Nat)) (e : List String × Nat),
      e ∈ seeds.foldl (fun m s => processSeedChain m chain s) m →
      e.1 ∈ mapKeys m ∨ ∃ s ∈ seeds, e.1 ∈ chainKeys chain s := by
  induction seeds with
  | nil =>
    intro m e h
    exact Or.inl (List.mem_map_of_mem _ (by simpa using h))
  | cons s seeds ih =>
    intro m e h
    rcases ih _ e (by simpa using h) with h' | h'
    · rcases mem_mapKeys_foldl_incr h' with h'' | h''
      · exact Or.inl h''
      · exact Or.inr ⟨s, by simp, h''⟩
    · obtain ⟨s', hs', hk⟩ := h'
      exact Or.inr ⟨s', by simp [hs'], hk⟩

theorem mem_aggregateChain {chain : List (Analyzer σ)} {seeds : List σ}
    {e : List String × Nat} (h : e ∈ aggregateChain chain seeds) :
    ∃ s ∈ seeds, e.1 ∈ chainKeys chain s := by
  rw [aggregateChain] at h
  rcases mem_aggregateFrom chain seeds [] e h with h' | h'
  · simp [mapKeys] at h'
  · exact h'

/-! ### The comparison used by `Stats::csv` is a total preorder -/

theorem charsLeb_total (x : List Char) :
    ∀ y, charsLeb x y = true ∨ charsLeb y x = true := by
  induction x with
  | nil =>
    intro y
    left
    cases y <;> rfl
  | cons c cs ih =>
    intro y
    cases y with
    | nil =>
      right
      rfl
    | cons d ds =>
      by_cases hcd : c = d
      · subst hcd
        simpa only [charsLeb, if_pos rfl] using ih ds
      · simp only [charsLeb, if_neg hcd, if_neg (Ne.symm hcd),
          decide_eq_true_eq]
        exact lt_or_gt_of_ne hcd

theorem charsLeb_trans :
    ∀ x y z : List Char,
      charsLeb x y = true → charsLeb y z = true → charsLeb x z = true := by
  intro x
  induction x with
  | nil =>
    intro y z _ _
    cases z <;> rfl
  | cons c cs ih =>
    intro y z h1 h2
    cases y with
    | nil => simp [charsLeb] at h1
    | cons d ds =>
      cases z with
      | nil => simp [charsLeb] at h2
      | cons e es =>
        by_cases hcd : c = d
        · subst hcd
          simp only [charsLeb, if_pos rfl] at h1
          by_cases hce : c = e
          · subst hce
            simp only [charsLeb, if_pos rfl] at h2 ⊢
            exact ih ds es h1 h2
          · simp only [charsLeb, if_neg hce] at h2 ⊢
            exact h2
        · simp only [charsLeb, if_neg hcd, decide_eq_true_eq] at h1
          by_cases hde : d = e
          · subst hde
            simp only [charsLeb, if_neg hcd, decide_eq_true_eq]
            exact h1
          · simp only [charsLeb, if_neg hde, decide_eq_true_eq] at h2
            by_cases hce : c = e
            · subst hce
              exact absurd h2 (lt_asymm h1)
            · simp only [charsLeb, if_neg hce, decide_eq_true_eq]
              exact lt_trans h1 h2

theorem charsLeb_antisymm :
    ∀ x y : List Char,
      charsLeb x y = true → charsLeb y x = true → x = y := by
  intro x
  induction x with
  | nil =>
    intro y h1 h2
    cases y with
    | nil => rfl
    | cons d ds => simp [charsLeb] at h2
  | cons c cs ih =>
    intro y h1 h2
    cases y with
    | nil => simp [charsLeb] at h1
    | cons d ds =>
      by_cases hcd : c = d
      · subst hcd
        simp only [charsLeb, if_pos rfl] at h1 h2
        rw [ih ds h1 h2]
      · simp only [charsLeb, if_neg hcd, if_neg (Ne.symm hcd),
          decide_eq_true_eq] at h1 h2
        exact absurd h2 (lt_asymm h1)

theorem strLeb_total (a b : String) : strLeb a b = true ∨ strLeb b a = true :=
  charsLeb_total a.data b.data

theorem strLeb_trans {a b c : String} (h1 : strLeb a b = true)
    (h2 : strLeb b c = true) : strLeb a c = true :=
  charsLeb_trans a.data b.data c.data h1 h2

theorem strLeb_antisymm {a b : String} (h1 : strLeb a b = true)
    (h2 : strLeb b a = true) : a = b :=
  String.toList_inj.mp (charsLeb_antisymm a.data b.data h1 h2)

theorem StringOrNumber.leb_total (a b : StringOrNumber) :
    a.leb b = true ∨ b.leb a = true := by
  cases a <;> cases b <;> simp [leb]
  · exact strLeb_total ..
  · exact le_total ..

theorem StringOrNumber.leb_trans {a b c : StringOrNumber}
    (h1 : a.leb b = true) (h2 : b.leb c = true) : a.leb c = true := by
  cases a <;> cases b <;> cases c <;> simp_all [leb]
  · exact strLeb_trans h1 h2
  · exact le_trans h1 h2

theorem StringOrNumber.leb_antisymm {a b : StringOrNumber}
    (h1 : a.leb b = true) (h2 : b.leb a = true) : a = b := by
  cases a <;> cases b <;> simp_all [leb]
  · exact strLeb_antisymm h1 h2
  · exact le_antisymm h1 h2

theorem keyLeb_total (x : List StringOrNumber) :
    ∀ y, keyLeb x y = true ∨ keyLeb y x = true := by
  induction x with
  | nil =>
    intro y
    left
    cases y <;> rfl
  | cons a as ih =>
    intro y
    cases y with
    | nil =>
      right
      rfl
    | cons b bs =>
      by_cases hab : a = b
      · subst hab
        simpa only [keyLeb, if_pos rfl] using ih bs
      · simp only [keyLeb, if_neg hab, if_neg (Ne.symm hab)]
        exact StringOrNumber.leb_total a b

theorem keyLeb_trans :
    ∀ x y z : List StringOrNumber,
      keyLeb x y = true → keyLeb y z = true → keyLeb x z = true := by
  intro x
  induction x with
  | nil =>
    intro y z _ _
    cases z <;> rfl
  | cons a as ih =>
    intro y z h1 h2
    cases y with
    | nil => simp [keyLeb] at h1
    | cons b bs =>
      cases z with
      | nil => simp [keyLeb] at h2
      | cons c cs =>
        by_cases hab : a = b
        · subst hab
          simp only [keyLeb, if_pos rfl] at h1
          by_cases hbc : a = c
          · subst hbc
            simp only [keyLeb, if_pos rfl] at h2 ⊢
            exact ih bs cs h1 h2
          · simp only [keyLeb, if_neg hbc] at h2 ⊢
            exact h2
        · simp only [keyLeb, if_neg hab] at h1
          by_cases hbc : b = c
          · subst hbc
            simp only [keyLeb, if_neg hab]
            exact h1
          · simp only [keyLeb, if_neg hbc] at h2
            by_cases hac : a = c
            · subst hac
              exact absurd (StringOrNumber.leb_antisymm h1 h2) hab
            · simp only [keyLeb, if_neg hac]
              exact StringOrNumber.leb_trans h1 h2

theorem keyLeb_antisymm :
    ∀ x y : List StringOrNumber,
      keyLeb x y = true → keyLeb y x = true → x = y := by
  intro x
  induction x with
  | nil =>
    intro y h1 h2
    cases y with
    | nil => rfl
    | cons b bs => simp [keyLeb] at h2
  | cons a as ih =>
    intro y h1 h2
    cases y with
    | nil => simp [keyLeb] at h1
    | cons b bs =>
      by_cases hab : a = b
      · subst hab
        simp only [keyLeb, if_pos rfl] at h1 h2
        rw [ih bs h1 h2]
      · simp only [keyLeb, if_neg hab, if_neg (Ne.symm hab)] at h1 h2
        exact absurd (StringOrNumber.leb_antisymm h1 h2) hab

/-- The entry comparison `Stats::csv` sorts by. -/
def entryLeb (e1 e2 : List String × Nat) : Bool :=
  keyLeb (sortKeyOf e1.1) (sortKeyOf e2.1)

theorem sortData_eq_mergeSort (data : List (List String × Nat)) :
    sortData data = data.mergeSort entryLeb := rfl

theorem sortData_perm (data : List (List String × Nat)) :
    (sortData data).Perm data :=
  List.mergeSort_perm data _

theorem sortData_sorted (data : List (List String × Nat)) :
    (sortData data).Pairwise fun e1 e2 => entryLeb e1 e2 = true := by
  rw [sortData_eq_mergeSort]
  exact List.sorted_mergeSort
    (fun a b c => keyLeb_trans (sortKeyOf a.1) (sortKeyOf b.1) (sortKeyOf c.1))
    (fun a b => by
      rcases keyLeb_total (sortKeyOf a.1) (sortKeyOf b.1) with h | h <;>
        simp [entryLeb, h])
    data

/-- Two sorted entry lists that are permutations of one another are equal,
provided no two entries share a sort key. -/
theorem sorted_entries_unique {l₁ l₂ : List (List String × Nat)}
    (p : l₁.Perm l₂)
    (hn : (l₁.map fun e => sortKeyOf e.1).Nodup)
    (hs₁ : l₁.Pairwise fun e1 e2 => entryLeb e1 e2 = true)
    (hs₂ : l₂.Pairwise fun e1 e2 => entryLeb e1 e2 = true) :
    l₁ = l₂ := by
  have hn₂ : (l₂.map fun e => sortKeyOf e.1).Nodup :=
    ((p.map fun e => sortKeyOf e.1).nodup_iff).mp hn
  have strict : ∀ d : List (List String × Nat),
      (d.map fun e => sortKeyOf e.1).Nodup →
      (d.Pairwise fun e1 e2 => entryLeb e1 e2 = true) →
      d.Pairwise fun e1 e2 =>
        (entryLeb e1 e2 = true ∧ sortKeyOf e1.1 ≠ sortKeyOf e2.1) ∨ e1 = e2 := by
    intro d hnd hs
    have hne : d.Pairwise fun e1 e2 => sortKeyOf e1.1 ≠ sortKeyOf e2.1 := by
      rw [List.Nodup, List.pairwise_map] at hnd
      exact hnd
    exact (hs.and hne).imp Or.inl
  haveI : IsAntisymm (List String × Nat) fun e1 e2 =>
      (entryLeb e1 e2 = true ∧ sortKeyOf e1.1 ≠ sortKeyOf e2.1) ∨ e1 = e2 := by
    constructor
    intro a b hab hba
    rcases hab with ⟨h1, hne⟩ | rfl
    · rcases hba with ⟨h2, _⟩ | rfl
      · exact absurd (keyLeb_antisymm _ _ h1 h2) hne
      · rfl
    · rfl
  exact List.eq_of_perm_of_sorted p (strict _ hn hs₁) (strict _ hn₂ hs₂)

/-- When no two entries share a sort key, the sorted entry list is a function
of the entry multiset: stable sorting cannot distinguish permutations. -/
theorem sortData_eq_of_perm {d₁ d₂ : List (List String × Nat)}
    (hp : d₁.Perm d₂)
    (hn : (d₁.map fun e => sortKeyOf e.1).Nodup) :
    sortData d₁ = sortData d₂ := by
  have p : (sortData d₁).Perm (sortData d₂) :=
    (sortData_perm d₁).trans (hp.trans (sortData_perm d₂).symm)
  have hns₁ : ((sortData d₁).map fun e => sortKeyOf e.1).Nodup :=
    (((sortData_perm d₁).map fun e => sortKeyOf e.1).nodup_iff).mpr hn
  exact sorted_entries_unique p hns₁ (sortData_sorted d₁) (sortData_sorted d₂)

/-- Computes `sortData` on a concrete list with pairwise distinct sort keys:
the result is the unique sorted reordering. -/
theorem sortData_eq_of_perm_sorted {d d' : List (List String × Nat)}
    (hp : d.Perm d')
    (hn : (d.map fun e => sortKeyOf e.1).Nodup)
    (hs : d'.Pairwise fun e1 e2 => entryLeb e1 e2 = true) :
    sortData d = d' := by
  have p : (sortData d).Perm d' := (sortData_perm d).trans hp
  have hns : ((sortData d).map fun e => sortKeyOf e.1).Nodup :=
    (((sortData_perm d).map fun e => sortKeyOf e.1).nodup_iff).mpr hn
  exact sorted_entries_unique p hns (sortData_sorted d) hs

/-- An already sorted entry list is left unchanged (`sort_by_key` is stable,
so ties keep their order). -/
theorem sortData_of_sorted {d : List (List String × Nat)}
    (hs : d.Pairwise fun e1 e2 => entryLeb e1 e2 = true) :
    sortData d = d :=
  List.mergeSort_of_sorted hs

/-- Amended determinism of `Stats::csv`: equal titles and the same multiset of
map entries give identical output as soon as no two distinct entries share a
sort key. -/
theorem csv_deterministic_aux (s₁ s₂ : Stats)
    (ht : s₁.analyzer_titles = s₂.analyzer_titles)
    (hp : s₁.data.Perm s₂.data)
    (hn : (s₁.data.map fun e => sortKeyOf e.1).Nodup) :
    s₁.csv = s₂.csv := by
  rw [Stats.csv, Stats.csv, ht, sortData_eq_of_perm hp hn]

/-! ### Joining interspersed rows is `String.intercalate` -/

theorem intercalate_go_append (s : String) :
    ∀ (t : List String) (acc b : String),
      String.intercalate.go (acc ++ b) s t = acc ++ String.intercalate.go b s t := by
  intro t
  induction t with
  | nil =>
    intro acc b
    rfl
  | cons c t ih =>
    intro acc b
    show String.intercalate.go (acc ++ b ++ s ++ c) s t
      = acc ++ String.intercalate.go (b ++ s ++ c) s t
    rw [String.append_assoc acc b s, String.append_assoc acc (b ++ s) c]
    exact ih acc (b ++ s ++ c)

theorem foldl_append_init (xs : List String) :
    ∀ acc1 acc2 : String,
      xs.foldl (· ++ ·) (acc1 ++ acc2) = acc1 ++ xs.foldl (· ++ ·) acc2 := by
  induction xs with
  | nil =>
    intro acc1 acc2
    rfl
  | cons x xs ih =>
    intro acc1 acc2
    simp only [List.foldl_cons]
    rw [String.append_assoc, ih]

theorem join_intersperse (s : String) :
    ∀ l : List String,
      String.join (List.intersperse s l) = String.intercalate s l := by
  have main : ∀ (t : List String) (a : String),
      String.join (List.intersperse s (a :: t)) = String.intercalate.go a s t := by
    intro t
    induction t with
    | nil =>
      intro a
      show "" ++ a = a
      rfl
    | cons b t ih =>
      intro a
      show List.foldl (· ++ ·) "" (a :: s :: List.intersperse s (b :: t))
        = String.intercalate.go (a ++ s ++ b) s t
      simp only [List.foldl_cons, String.empty_append]
      have h1 : List.foldl (· ++ ·) (a ++ s) (List.intersperse s (b :: t))
          = (a ++ s) ++ List.foldl (· ++ ·) "" (List.intersperse s (b :: t)) := by
        calc List.foldl (· ++ ·) (a ++ s) (List.intersperse s (b :: t))
            = List.foldl (· ++ ·) ((a ++ s) ++ "") (List.intersperse s (b :: t)) := by
              rw [String.append_empty]
          _ = (a ++ s) ++ List.foldl (· ++ ·) "" (List.intersperse s (b :: t)) :=
              foldl_append_init _ _ _
      rw [h1]
      have h2 : List.foldl (· ++ ·) "" (List.intersperse s (b :: t))
          = String.intercalate.go b s t := ih b
      rw [h2, ← intercalate_go_append s t (a ++ s) b, String.append_assoc]
  intro l
  cases l with
  | nil => rfl
  | cons a t => exact main t a

/-! ### Corpus construction lemmas -/

theorem corpusGenerate_ok_length (gen : Nat → Option σ) (tolerated : Nat)
    (idx slots failures : Nat) :
    ∀ l : List σ,
      corpusGenerate gen tolerated idx slots failures = .ok l →
      l.length = slots := by
  induction idx, slots, failures using corpusGenerate.induct gen tolerated with
  | case1 idx failures =>
    intro l h
    rw [corpusGenerate, if_pos rfl] at h
    cases h
    rfl
  | case2 idx slots failures hs artifact hgen rest hrec ih =>
    intro l h
    rw [corpusGenerate, if_neg hs, hgen, hrec] at h
    cases h
    have hlen := ih rest hrec
    simp only [List.length_cons, hlen]
    omega
  | case3 idx slots failures hs artifact hgen e hrec ih =>
    intro l h
    rw [corpusGenerate, if_neg hs, hgen, hrec] at h
    cases h
  | case4 idx slots failures hs hgen habort =>
    intro l h
    rw [corpusGenerate, if_neg hs, hgen, if_pos habort] at h
    cases h
  | case5 idx slots failures hs hgen habort ih =>
    intro l h
    rw [corpusGenerate, if_neg hs, hgen, if_neg habort] at h
    exact ih l h

theorem corpusGenerate_all_fail (gen : Nat → Option σ) (tolerated : Nat) :
    ∀ (d idx failures slots : Nat), failures + d = tolerated + 1 →
      failures ≤ tolerated →
      (∀ i, i < d → gen (idx + i) = none) → slots ≠ 0 →
      corpusGenerate gen tolerated idx slots failures
        = .error (tolerated + 1) := by
  intro d
  induction d with
  | zero =>
    intro idx failures slots hd hf _ _
    omega
  | succ d ih =>
    intro idx failures slots hd hf hgen hs
    have h0 : gen idx = none := by simpa using hgen 0 (by omega)
    rw [corpusGenerate, if_neg hs, h0]
    by_cases habort : tolerated < failures + 1
    · rw [if_pos habort]
      have : failures = tolerated := by omega
      rw [this]
    · rw [if_neg habort]
      exact ih (idx + 1) (failures + 1) slots (by omega) (by omega)
        (fun i hi => by
          have := hgen (i + 1) (by omega)
          simpa [Nat.add_assoc, Nat.add_comm 1 i] using this) hs

theorem corpusGenerate_skip_failures (gen : Nat → Option σ) (tolerated : Nat) :
    ∀ (d idx failures slots : Nat), slots ≠ 0 → failures + d ≤ tolerated →
      (∀ i, i < d → gen (idx + i) = none) →
      corpusGenerate gen tolerated idx slots failures
        = corpusGenerate gen tolerated (idx + d) slots (failures + d) := by
  intro d
  induction d with
  | zero =>
    intro idx failures slots _ _ _
    rfl
  | succ d ih =>
    intro idx failures slots hs hb hgen
    have h0 : gen idx = none := by simpa using hgen 0 (by omega)
    rw [corpusGenerate, if_neg hs, h0,
      if_neg (by omega : ¬tolerated < failures + 1)]
    have hrec := ih (idx + 1) (failures + 1) slots hs (by omega) (fun i hi => by
      have := hgen (i + 1) (by omega)
      simpa [Nat.add_assoc, Nat.add_comm 1 i] using this)
    rw [hrec]
    have e1 : idx + 1 + d = idx + (d + 1) := by omega
    have e2 : failures + 1 + d = failures + (d + 1) := by omega
    rw [e1, e2]

theorem corpusGenerate_all_some (gen : Nat → Option σ) (tolerated : Nat)
    (art : Nat → σ) :
    ∀ (slots idx failures : Nat),
      (∀ i, gen (idx + i) = some (art (idx + i))) →
      corpusGenerate gen tolerated idx slots failures
        = .ok ((List.range slots).map fun j => art (idx + j)) := by
  intro slots
  induction slots with
  | zero =>
    intro idx failures _
    rw [corpusGenerate, if_pos rfl]
    simp
  | succ slots ih =>
    intro idx failures hgen
    have h0 : gen idx = some (art idx) := by simpa using hgen 0
    rw [corpusGenerate, if_neg (Nat.succ_ne_zero slots), h0]
    have hrest : corpusGenerate gen tolerated (idx + 1) (slots + 1 - 1) failures
        = .ok ((List.range slots).map fun j => art (idx + 1 + j)) := by
      simp only [Nat.add_sub_cancel]
      exact ih (idx + 1) failures (fun i => by
        have := hgen (i + 1)
        simpa [Nat.add_assoc, Nat.add_comm 1 i] using this)
    rw [hrest]
    show Except.ok (art idx :: (List.range slots).map fun j => art (idx + 1 + j))
      = Except.ok ((List.range (slots + 1)).map fun j => art (idx + j))
    congr 1
    rw [List.range_succ_eq_map, List.map_cons, List.map_map, Nat.add_zero]
    congr 1
    apply List.map_congr_left
    intro j _
    show art (idx + 1 + j) = art (idx + (j + 1))
    congr 1
    omega

/-! ### Claim theorems -/

/-- `Stats::csv` on a literal `Stats` value, with the lets unfolded. -/
theorem csv_mk (titles : List String) (data : List (List String × Nat)) :
    (Stats.mk titles data).csv
      = String.intercalate ", " titles ++ ", Count\n"
        ++ String.join (List.intersperse "\n" ((sortData data).map csvRow)) :=
  rfl

/-- C1, counterexample: for labels "10", "2", "apple" at one position,
`Stats::csv` renders "apple" first — the derived order on the sort-key type
puts every textual label before every numeric label — so the spec's claimed
row order "2", "10", "apple" is wrong. -/
theorem C1_counterexample :
    (Stats.mk ["Fruit"] [(["10"], 1), (["2"], 1), (["apple"], 1)]).csv
        = "Fruit, Count\napple, 1\n2, 1\n10, 1"
    ∧ (Stats.mk ["Fruit"] [(["10"], 1), (["2"], 1), (["apple"], 1)]).csv
        ≠ "Fruit, Count\n2, 1\n10, 1\napple, 1" := by
  have hsort : sortData [(["10"], 1), (["2"], 1), (["apple"], 1)]
      = [(["apple"], 1), (["2"], 1), (["10"], 1)] :=
    sortData_eq_of_perm_sorted (by decide) (by decide) (by decide)
  rw [csv_mk, hsort]
  constructor
  · decide
  · decide

/-- C1 (amended): data rows of `Stats::csv` are ordered by comparing label
tuples position by position, where a label that parses as a `u32` compares by
numeric value, a label that does not parse compares lexicographically as text,
and at any position every textual label orders before every numeric label; for
keys "10", "2", "apple" the rendered order is "apple", "2", "10". -/
theorem C1_row_order :
    (∀ s : Stats, (sortData s.data).Pairwise fun e1 e2 =>
        keyLeb (sortKeyOf e1.1) (sortKeyOf e2.1) = true)
    ∧ (Stats.mk ["Fruit"] [(["10"], 1), (["2"], 1), (["apple"], 1)]).csv
        = "Fruit, Count\napple, 1\n2, 1\n10, 1" := by
  have hsort : sortData [(["10"], 1), (["2"], 1), (["apple"], 1)]
      = [(["apple"], 1), (["2"], 1), (["10"], 1)] :=
    sortData_eq_of_perm_sorted (by decide) (by decide) (by decide)
  constructor
  · intro s
    exact sortData_sorted s.data
  · rw [csv_mk, hsort]
    decide

/-- C5, counterexample: two `Stats` values with equal titles and the same
key-to-count entries (a permutation of one another, so the same mapping) can
render different `csv` output, because the labels "1" and "01" share the sort
key and the stable sort keeps the iteration order of the backing map. -/
theorem C5_counterexample :
    ([(["1"], 1), (["01"], 2)] : List (List String × Nat)).Perm
        [(["01"], 2), (["1"], 1)]
    ∧ (Stats.mk ["Number"] [(["1"], 1), (["01"], 2)]).analyzer_titles
        = (Stats.mk ["Number"] [(["01"], 2), (["1"], 1)]).analyzer_titles
    ∧ (Stats.mk ["Number"] [(["1"], 1), (["01"], 2)]).csv
        ≠ (Stats.mk ["Number"] [(["01"], 2), (["1"], 1)]).csv := by
  have h1 : sortData [(["1"], 1), (["01"], 2)] = [(["1"], 1), (["01"], 2)] :=
    sortData_of_sorted (by decide)
  have h2 : sortData [(["01"], 2), (["1"], 1)] = [(["01"], 2), (["1"], 1)] :=
    sortData_of_sorted (by decide)
  refine ⟨List.Perm.swap _ _ _, rfl, ?_⟩
  rw [csv_mk, csv_mk, h1, h2]
  decide

/-- C5 (amended): `Stats::csv` is a function of the analyzer titles and the
key-to-count mapping provided no two distinct entries share a sort key (for
example, no two labels like "1" and "01" that parse to the same number): equal
titles and permuted entry lists then give character-for-character identical
output. -/
theorem C5_csv_deterministic (s₁ s₂ : Stats)
    (ht : s₁.analyzer_titles = s₂.analyzer_titles)
    (hp : s₁.data.Perm s₂.data)
    (hn : (s₁.data.map fun e => sortKeyOf e.1).Nodup) :
    s₁.csv = s₂.csv :=
  csv_deterministic_aux s₁ s₂ ht hp hn

theorem C5_csv_deterministic_witness :
    (([(["2"], 1), (["apple"], 3)] : List (List String × Nat)).Perm
        [(["apple"], 3), (["2"], 1)]
      ∧ (([(["2"], 1), (["apple"], 3)] : List (List String × Nat)).map
          fun e => sortKeyOf e.1).Nodup)
    ∧ (Stats.mk ["F"] [(["2"], 1), (["apple"], 3)]).csv
        = (Stats.mk ["F"] [(["apple"], 3), (["2"], 1)]).csv :=
  ⟨⟨List.Perm.swap _ _ _, by decide⟩,
    C5_csv_deterministic
      (Stats.mk ["F"] [(["2"], 1), (["apple"], 3)])
      (Stats.mk ["F"] [(["apple"], 3), (["2"], 1)])
      rfl (List.Perm.swap _ _ _) (by decide)⟩

/-- C9: `Stats::title` joins the analyzer titles with " and "; `Stats::csv`
starts with the titles joined with ", " followed by ", Count" and a newline,
and each data row is the key's labels in chain order joined with ", ",
followed by ", " and the count, rows separated by newlines. -/
theorem C9_title_and_csv_format :
    (∀ s : Stats, s.title = String.intercalate " and " s.analyzer_titles)
    ∧ (∀ s : Stats, s.csv
        = String.intercalate ", " s.analyzer_titles ++ ", Count\n"
          ++ String.intercalate "\n"
              ((sortData s.data).map fun e =>
                String.intercalate ", " e.1 ++ ", " ++ toString e.2))
    ∧ (Stats.mk ["A", "B"] [(["x", "y"], 3), (["u", "v"], 2)]).title
        = "A and B"
    ∧ (Stats.mk ["A", "B"] [(["x", "y"], 3), (["u", "v"], 2)]).csv
        = "A, B, Count\nu, v, 2\nx, y, 3" := by
  have hsort : sortData [(["x", "y"], 3), (["u", "v"], 2)]
      = [(["u", "v"], 2), (["x", "y"], 3)] :=
    sortData_eq_of_perm_sorted (by decide) (by decide) (by decide)
  refine ⟨fun s => rfl, fun s => ?_, rfl, ?_⟩
  · simp only [Stats.csv]
    rw [join_intersperse]
    rfl
  · rw [csv_mk, hsort]
    decide

theorem count_of_nodup {α : Type} [BEq α] [LawfulBEq α] {l : List α}
    (hnd : l.Nodup) (k : α) : l.count k = if k ∈ l then 1 else 0 := by
  induction l with
  | nil => simp
  | cons x l ih =>
    obtain ⟨hx, hl⟩ := List.nodup_cons.mp hnd
    by_cases hk : k = x
    · subst hk
      simp [List.count_cons, ih hl, hx]
    · simp [List.count_cons, ih hl, hk]

/-- C2: for a non-empty chain whose analyzers return non-empty, duplicate-free
label sequences for a seed, the seed contributes exactly the Cartesian product
of the label sequences, in chain order: k₁·k₂·…·kₘ distinct keys, and
processing the seed increments each such key's count by exactly 1, leaving
every other count unchanged. -/
theorem C2_cartesian_contribution {σ : Type} (chain : List (Analyzer σ))
    (seed : σ) (m : List (List String × Nat))
    (hne : chain ≠ [])
    (hl : ∀ a ∈ chain, a.analyze seed ≠ [] ∧ (a.analyze seed).Nodup) :
    chainKeys chain seed = cartesianProd (chain.map fun a => a.analyze seed)
    ∧ (chainKeys chain seed).length
        = (chain.map fun a => (a.analyze seed).length).prod
    ∧ (chainKeys chain seed).Nodup
    ∧ ∀ k, lookupCount (processSeedChain m chain seed) k
        = lookupCount m k + if k ∈ chainKeys chain seed then 1 else 0 := by
  have hnd : (chainKeys chain seed).Nodup :=
    nodup_chainKeys seed fun a ha => (hl a ha).2
  refine ⟨chainKeys_of_ne_nil hne seed, length_chainKeys hne seed, hnd, ?_⟩
  intro k
  rw [processSeedChain, lookupCount_foldl_incr]
  congr 1
  exact count_of_nodup hnd k

/-- C4: for a non-empty chain whose analyzers are unambiguous (exactly one
label per seed), the counts in the chain's finished accumulator sum to the
corpus size. -/
theorem C4_unambiguous_sum {σ : Type} (chain : List (Analyzer σ))
    (seeds : List σ) (hne : chain ≠ [])
    (h1 : ∀ a ∈ chain, ∀ s ∈ seeds, (a.analyze s).length = 1) :
    sumCounts (aggregateChain chain seeds) = seeds.length := by
  rw [sumCounts_aggregateChain]
  have hone : ∀ s ∈ seeds, (chainKeys chain s).length = 1 := by
    intro s hs
    rw [length_chainKeys hne]
    apply List.prod_eq_one
    intro x hx
    simp only [List.mem_map] at hx
    obtain ⟨a, ha, rfl⟩ := hx
    exact h1 a ha s hs
  rw [List.map_congr_left hone]
  simp

/-- C6: the counts in every chain's report are invariant under permutation of
the corpus: aggregating any reordering of the seeds gives, chain by chain,
equal titles and the same key-to-count mapping. -/
theorem C6_perm_invariant {σ : Type} (chains : List (List (Analyzer σ)))
    (seeds₁ seeds₂ : List σ) (hp : seeds₁.Perm seeds₂) :
    List.Forall₂ (fun s₁ s₂ =>
        s₁.analyzer_titles = s₂.analyzer_titles
        ∧ ∀ k, lookupCount s₁.data k = lookupCount s₂.data k)
      (statsFn chains seeds₁) (statsFn chains seeds₂) := by
  rw [statsFn_eq, statsFn_eq]
  induction chains with
  | nil => constructor
  | cons c chains ih =>
    refine List.Forall₂.cons ⟨rfl, ?_⟩ ih
    intro k
    rw [lookupCount_aggregateChain, lookupCount_aggregateChain]
    exact (hp.map fun s => (chainKeys c s).count k).sum_eq

/-- C7: when every analyzer of a chain returns a non-empty label sequence for
every seed, every key in the chain's accumulator — after any number of seeds,
hence also every key ever inserted — has exactly one label per analyzer. -/
theorem C7_key_length {σ : Type} (chain : List (Analyzer σ)) (seeds : List σ)
    (_hl : ∀ a ∈ chain, ∀ s ∈ seeds, a.analyze s ≠ []) :
    ∀ e ∈ aggregateChain chain seeds, e.1.length = chain.length := by
  intro e he
  obtain ⟨s, _, hk⟩ := mem_aggregateChain he
  exact length_of_mem_chainKeys hk

/-- C10: an empty chain yields no keys at all (the multi-Cartesian product of
zero iterators is empty), an analyzer returning no labels empties the whole
product, the empty chain's report stays empty, and `stats` still returns one
report per configured chain, in the order the chains were supplied. -/
theorem C10_degenerate_chains {σ : Type} :
    (∀ seed : σ, chainKeys ([] : List (Analyzer σ)) seed = [])
    ∧ (∀ (chain : List (Analyzer σ)) (seed : σ),
        (∃ a ∈ chain, a.analyze seed = []) → chainKeys chain seed = [])
    ∧ (∀ seeds : List σ, aggregateChain ([] : List (Analyzer σ)) seeds = [])
    ∧ (∀ (chains : List (List (Analyzer σ))) (seeds : List σ),
        statsFn chains seeds
          = chains.map fun c => Stats.mk (c.map (·.title)) (aggregateChain c seeds)) := by
  refine ⟨fun seed => rfl, ?_, ?_, statsFn_eq⟩
  · intro chain seed h
    obtain ⟨a, ha, hnil⟩ := h
    exact chainKeys_eq_nil_of_analyze_nil ha hnil
  · intro seeds
    induction seeds with
    | nil => rfl
    | cons s seeds ih =>
      show seeds.foldl (fun m s => processSeedChain m [] s)
        (processSeedChain [] [] s) = []
      exact ih

/-- C3 (spec-modelled corpus): corpus construction is all-or-nothing. A
generator failing on the first T+1 attempts makes `corpusNew` return the
corpus-exhaustion error before any artifact is produced; a generator failing
exactly T times and then succeeding yields exactly S artifacts; and every
successful corpus has exactly `sampleSize` artifacts — no partial corpus is
ever returned. -/
theorem C3_corpus_all_or_nothing {σ : Type} :
    (∀ (gen : Nat → Option σ) (S T : Nat), 0 < S →
        (∀ i, i ≤ T → gen i = none) →
        corpusNew [] gen S T = .error (T + 1))
    ∧ (∀ (art : Nat → σ) (S T : Nat),
        corpusNew [] (fun i => if i < T then none else some (art i)) S T
          = .ok ((List.range S).map fun j => art (T + j)))
    ∧ (∀ (cached : List σ) (gen : Nat → Option σ) (S T : Nat) (res : List σ),
        corpusNew cached gen S T = .ok res → res.length = S) := by
  refine ⟨?_, ?_, ?_⟩
  · intro gen S T hS hfail
    have h := corpusGenerate_all_fail gen T (T + 1) 0 0 S (by omega) (by omega)
      (fun i hi => by simpa using hfail i (by omega)) (by omega)
    simp only [corpusNew, List.take_nil, List.length_nil, Nat.sub_zero]
    rw [h]
  · intro art S T
    by_cases hS : S = 0
    · subst hS
      simp only [corpusNew, List.take_nil, List.length_nil, Nat.sub_zero]
      rw [corpusGenerate, if_pos rfl]
      simp
    · simp only [corpusNew, List.take_nil, List.length_nil, Nat.sub_zero]
      rw [corpusGenerate_skip_failures _ T T 0 0 S hS (by omega)
        (fun i hi => by simp [hi])]
      simp only [Nat.zero_add]
      rw [corpusGenerate_all_some _ T art S T T
        (fun i => by simp [Nat.not_lt.mpr (Nat.le_add_right T i)])]
      simp
  · intro cached gen S T res h
    simp only [corpusNew] at h
    cases hres : corpusGenerate gen T 0 (S - (List.take S cached).length) 0 with
    | ok fresh =>
      rw [hres] at h
      have h' : List.take S cached ++ fresh = res := Except.ok.inj h
      have hf := corpusGenerate_ok_length gen T 0
        (S - (List.take S cached).length) 0 fresh hres
      have ht : (List.take S cached).length ≤ S := List.length_take_le _ _
      rw [← h', List.length_append, hf]
      omega
    | error err =>
      rw [hres] at h
      cases h

/-- C8: when `overwrite_seed_storage` is set, `stats` cleans the store before
any corpus construction (the clean event comes first); a failing clean makes
`stats` return the store error at once, with no corpus constructed and no
report produced; when the flag is unset the store is never cleaned. -/
theorem C8_overwrite_clean {σ : Type} (cleanResult : Except String Unit)
    (corpusResult : Except String (List σ)) (chains : List (List (Analyzer σ)))
    (e : String) (u : Unit) :
    statsRun true (.error e) corpusResult chains = ([], .error e)
    ∧ StoreEvent.cleaned ∉ (statsRun false cleanResult corpusResult chains).1
    ∧ (statsRun true (.ok u) corpusResult chains).1.head? = some .cleaned := by
  refine ⟨rfl, ?_, ?_⟩
  · cases corpusResult <;> simp [statsRun, statsAfterClean]
  · cases corpusResult <;> simp [statsRun, statsAfterClean]

/-! ### Concrete witnesses -/

/-- Example analyzer with exactly one label per seed. -/
def exParity : Analyzer Nat :=
  ⟨fun n => [if n % 2 = 0 then "even" else "odd"], "Parity"⟩

/-- Example analyzer with two distinct labels per seed. -/
def exPair : Analyzer Nat :=
  ⟨fun n => [if n % 2 = 0 then "even" else "odd", "all"], "Pair"⟩

/-- Example analyzer that returns no labels. -/
def exEmpty : Analyzer Nat :=
  ⟨fun _ => [], "Empty"⟩

/-- Witness for C2 at a concrete chain, seed and accumulator. -/
theorem C2_witness :
    (([exPair, exParity] : List (Analyzer Nat)) ≠ []
      ∧ ∀ a ∈ ([exPair, exParity] : List (Analyzer Nat)),
          a.analyze 4 ≠ [] ∧ (a.analyze 4).Nodup)
    ∧ (chainKeys [exPair, exParity] 4).length
        = ([exPair, exParity].map fun a => (a.analyze 4).length).prod
    ∧ lookupCount (processSeedChain [] [exPair, exParity] 4) ["even", "even"]
        = lookupCount [] ["even", "even"]
          + if ["even", "even"] ∈ chainKeys [exPair, exParity] 4 then 1
            else 0 := by
  have hne : ([exPair, exParity] : List (Analyzer Nat)) ≠ [] :=
    List.cons_ne_nil _ _
  have hl : ∀ a ∈ ([exPair, exParity] : List (Analyzer Nat)),
      a.analyze 4 ≠ [] ∧ (a.analyze 4).Nodup := by
    intro a ha
    rcases List.mem_cons.mp ha with rfl | ha
    · exact ⟨by decide, by decide⟩
    rcases List.mem_cons.mp ha with rfl | ha
    · exact ⟨by decide, by decide⟩
    · simp at ha
  have h := C2_cartesian_contribution [exPair, exParity] 4 [] hne hl
  exact ⟨⟨hne, hl⟩, h.2.1, h.2.2.2 _⟩

/-- Witness for C4 at a concrete unambiguous chain and corpus. -/
theorem C4_witness :
    (([exParity] : List (Analyzer Nat)) ≠ []
      ∧ ∀ a ∈ ([exParity] : List (Analyzer Nat)),
          ∀ s ∈ ([1, 2, 3] : List Nat), (a.analyze s).length = 1)
    ∧ sumCounts (aggregateChain [exParity] [1, 2, 3]) = 3 := by
  have hne : ([exParity] : List (Analyzer Nat)) ≠ [] := List.cons_ne_nil _ _
  have h1 : ∀ a ∈ ([exParity] : List (Analyzer Nat)),
      ∀ s ∈ ([1, 2, 3] : List Nat), (a.analyze s).length = 1 := by
    intro a ha s _
    rcases List.mem_cons.mp ha with rfl | ha
    · rfl
    · simp at ha
  exact ⟨⟨hne, h1⟩, C4_unambiguous_sum [exParity] [1, 2, 3] hne h1⟩

/-- Witness for C6 at a concrete pair of permuted corpora. -/
theorem C6_witness :
    ([2, 1] : List Nat).Perm [1, 2]
    ∧ List.Forall₂ (fun s₁ s₂ =>
        s₁.analyzer_titles = s₂.analyzer_titles
        ∧ ∀ k, lookupCount s₁.data k = lookupCount s₂.data k)
      (statsFn [[exParity]] [2, 1]) (statsFn [[exParity]] [1, 2]) :=
  ⟨List.Perm.swap 1 2 [],
    C6_perm_invariant [[exParity]] [2, 1] [1, 2] (List.Perm.swap 1 2 [])⟩

/-- Witness for C7 at a concrete chain and corpus. -/
theorem C7_witness :
    (∀ a ∈ ([exPair] : List (Analyzer Nat)), ∀ s ∈ ([5, 6] : List Nat),
        a.analyze s ≠ [])
    ∧ ∀ e ∈ aggregateChain [exPair] [5, 6], e.1.length = 1 := by
  have hl : ∀ a ∈ ([exPair] : List (Analyzer Nat)), ∀ s ∈ ([5, 6] : List Nat),
      a.analyze s ≠ [] := by
    intro a ha s _
    rcases List.mem_cons.mp ha with rfl | ha
    · exact List.cons_ne_nil _ _
    · simp at ha
  exact ⟨hl, C7_key_length [exPair] [5, 6] hl⟩

/-- Witness for C10 at a chain containing an analyzer with no labels. -/
theorem C10_witness :
    (∃ a ∈ ([exEmpty, exParity] : List (Analyzer Nat)), a.analyze 3 = [])
    ∧ chainKeys [exEmpty, exParity] 3 = [] := by
  have hex : ∃ a ∈ ([exEmpty, exParity] : List (Analyzer Nat)),
      a.analyze 3 = [] := ⟨exEmpty, by simp, rfl⟩
  exact ⟨hex, (C10_degenerate_chains (σ := Nat)).2.1 _ 3 hex⟩

/-- Witness for C3 at a generator that always fails, with S = 2, T = 1. -/
theorem C3_witness :
    (0 < 2 ∧ ∀ i, i ≤ 1 → (fun _ : Nat => (none : Option Nat)) i = none)
    ∧ corpusNew ([] : List Nat) (fun _ => none) 2 1 = .error 2 :=
  ⟨⟨by decide, fun _ _ => rfl⟩,
    (C3_corpus_all_or_nothing (σ := Nat)).1 (fun _ => none) 2 1 (by decide)
      (fun _ _ => rfl)⟩

end WotwStats
